import Mathlib

/-!
# Verification of the dodemansknop watchdog engine

A shallow embedding of `src/main.rs` of mittwald/dodemansknop: a dead man's
switch.  External processes POST `/ping/{key}`; the handler forwards the key
over a bounded sync channel to the engine thread, which keeps one timer
`Guard` per key in a `HashMap` (`active_timers`) and schedules a 5-second
timer whose callback sends the key on the alert channel; the dispatcher
thread consumes alert events and invokes the configured notifier.

The engine, the timer library semantics (`timer::Timer::schedule_with_delay`
returning a `Guard` whose drop cancels future firings but lets an in-flight
callback complete), and the channels are modelled as a small-step transition
system over `EngineState`, driven by an explicit event trace.  Time is in
whole seconds (`Nat`), matching `chrono::Duration::seconds(5)`.
-/

namespace Dodemansknop

/-- The grace period: `chrono::Duration::seconds(5)` in `main.rs`. -/
def gracePeriod : Nat := 5

/-- One scheduled timer, as created by `timer.schedule_with_delay(delay, cb)`.
`created` is the engine-loop time at which the ping was processed,
`deadline = created + gracePeriod` is when the callback becomes due.
`cancelledAt` records when the owning `Guard` was dropped (by
`active_timers.insert` replacing the map entry), `inflightAt` when the
callback started executing, `firedAt` when the callback completed (having
sent the key on the alert channel). -/
structure TimerEntry where
  key : String
  created : Nat
  deadline : Nat
  cancelledAt : Option Nat
  inflightAt : Option Nat
  firedAt : Option Nat
deriving Repr, DecidableEq

/-- The registry `active_timers : HashMap<String, Guard>`, embedded as an
association list from key to the index of the timer whose guard it holds. -/
def lookupReg : List (String × Nat) → String → Option Nat
  | [], _ => none
  | (k', v) :: rest, k => if k' = k then some v else lookupReg rest k

/-- `HashMap::insert`: replace the binding for `k` if present, else add it. -/
def insertReg : List (String × Nat) → String → Nat → List (String × Nat)
  | [], k, v => [(k, v)]
  | (k', v') :: rest, k, v =>
      if k' = k then (k, v) :: rest else (k', v') :: insertReg rest k v

/-- State of the engine thread together with the timer subsystem and the
alert channel.  `timers` lists every timer ever scheduled, in creation
order (the list index is the timer's identity); `registry` is
`active_timers`; `alerts` is the sequence of keys sent on `tx_alert` so
far; `now` is the current time in seconds. -/
structure EngineState where
  now : Nat
  timers : List TimerEntry
  registry : List (String × Nat)
  alerts : List String
deriving Repr, DecidableEq

/-- The initial state: empty `active_timers`, nothing sent, time zero. -/
def initState : EngineState :=
  { now := 0, timers := [], registry := [], alerts := [] }

/-- Atomic events of the concurrent system.  `ping k` is one iteration of
the engine loop processing a received key; `beginFire i` is the timer
subsystem starting timer `i`'s callback (allowed only while its guard is
alive); `endFire i` is that callback completing, i.e. sending the key on
the alert channel (allowed even if the guard was dropped meanwhile, since
dropping a `Guard` only prevents future firings); `tick` advances time. -/
inductive Event where
  | ping (k : String)
  | tick
  | beginFire (i : Nat)
  | endFire (i : Nat)
deriving Repr, DecidableEq

/-- Mark timer `j`'s guard as dropped at time `t` (the `Guard` returned by
`HashMap::insert` replacing the old entry is dropped immediately). -/
def cancelTimer (ts : List TimerEntry) (j : Nat) (t : Nat) : List TimerEntry :=
  match ts[j]? with
  | some e => ts.set j { e with cancelledAt := e.cancelledAt <|> some t }
  | none => ts

/-- The timer scheduled by `timer.schedule_with_delay(delay, move || ...)`
while the engine processes a ping for `k` at time `now`: due after the
grace period, guard alive, callback not yet run. -/
def freshTimer (k : String) (now : Nat) : TimerEntry :=
  { key := k, created := now, deadline := now + gracePeriod,
    cancelledAt := none, inflightAt := none, firedAt := none }

/-- One step of the system.  `ping k` embeds the engine loop body: schedule
a fresh 5-second timer for `k` and `active_timers.insert(k, guard)`, which
drops (cancels) the guard previously stored for `k`, if any.  `beginFire`
requires the timer to be due, never started, and its guard still alive;
`endFire` completes an in-flight callback unconditionally, appending the
key to the alert channel. -/
def step (e : Event) (s : EngineState) : Option EngineState :=
  match e with
  | .ping k =>
      let i := s.timers.length
      let ts := s.timers ++ [freshTimer k s.now]
      let ts := match lookupReg s.registry k with
        | some j => cancelTimer ts j s.now
        | none => ts
      some { s with timers := ts, registry := insertReg s.registry k i }
  | .tick => some { s with now := s.now + 1 }
  | .beginFire i =>
      match s.timers[i]? with
      | some t =>
          if t.cancelledAt = none ∧ t.inflightAt = none ∧ t.deadline ≤ s.now then
            some { s with timers := s.timers.set i { t with inflightAt := some s.now } }
          else none
      | none => none
  | .endFire i =>
      match s.timers[i]? with
      | some t =>
          if t.inflightAt.isSome ∧ t.firedAt = none then
            some { s with timers := s.timers.set i { t with firedAt := some s.now },
                          alerts := s.alerts ++ [t.key] }
          else none
      | none => none

/-- Run a trace of events from a state; `none` if some event is not enabled. -/
def run : List Event → EngineState → Option EngineState
  | [], s => some s
  | e :: es, s =>
      match step e s with
      | some s' => run es s'
      | none => none

/-- Number of alert events for key `k` sent on the alert channel so far. -/
def alertCount (s : EngineState) (k : String) : Nat :=
  (s.alerts.filter (fun a => a = k)).length

/-- The timers scheduled for key `k`, in creation order. -/
def timersFor (s : EngineState) (k : String) : List TimerEntry :=
  s.timers.filter (fun t => t.key = k)

/-- Number of `ping k` events in a trace. -/
def pingCount (es : List Event) (k : String) : Nat :=
  (es.filter (fun e => e = .ping k)).length

end Dodemansknop

namespace Dodemansknop

/-! ## Alert dispatcher (`main.rs` first spawned thread)

The dispatcher loop receives keys from the alert channel one at a time and
calls `notifier.notify_failure(&key)`; an `Ok` is logged at info level, an
`Err` is logged as a warning, and in either case the loop continues with
the next event. -/

/-- Result of `Notifier::notify_failure`. -/
inductive NotifyResult where
  | ok
  | err (msg : String)
deriving Repr, DecidableEq

/-- The dispatcher loop, applied to the sequence of keys arriving on the
alert channel: each dequeued key gets exactly one `notify_failure` call,
and the loop proceeds to the next key whatever the result was.  The
returned list records, in processing order, each key with its notifier
result. -/
def dispatcherRun (notify : String → NotifyResult) : List String → List (String × NotifyResult)
  | [] => []
  | k :: rest => (k, notify k) :: dispatcherRun notify rest

/-! ## Ping ingestion handler (`handlers::ping` in `main.rs`)

`tx.send(id)` on a `std::sync::mpsc::SyncSender` (capacity-32 sync channel,
`mpsc::sync_channel(32)`): if the receiver has disconnected it returns
`Err(SendError)`; if the buffer is full it blocks until space frees up; and
otherwise it enqueues and returns `Ok(())`.  The handler maps `Ok` to
`200 OK` and `Err` to `503 Service Unavailable`. -/

/-- The ping channel created by `mpsc::sync_channel(32)`. -/
structure PingChannel where
  buffer : List String
  capacity : Nat
  connected : Bool
deriving Repr, DecidableEq

/-- The ping channel as constructed in `main`: capacity 32, receiver alive. -/
def initPingChannel : PingChannel :=
  { buffer := [], capacity := 32, connected := true }

/-- Outcome of one invocation of `handlers::ping` against a channel state. -/
inductive HandlerOutcome where
  /-- `tx.send` returned `Ok`: respond `200 OK`; the key is enqueued. -/
  | ok (ch : PingChannel)
  /-- `tx.send` returned `Err` (receiver disconnected): respond `503`. -/
  | serviceUnavailable
  /-- `tx.send` blocks: the buffer is full and the receiver is alive, so the
  handler is suspended inside `send` until space frees up; no response yet. -/
  | blocked
deriving Repr, DecidableEq

/-- `handlers::ping(id, tx)` embedded against the channel state, following
`SyncSender::send` semantics. -/
def handlersPing (id : String) (ch : PingChannel) : HandlerOutcome :=
  if ¬ch.connected then .serviceUnavailable
  else if ch.buffer.length < ch.capacity then
    .ok { ch with buffer := ch.buffer ++ [id] }
  else .blocked

/-! ## Notifier construction (`build_notifier` in `main.rs`)

`Settings` and the notifier types come from the `config`, `notifier` and
`notifiers::webhook` modules; the fields embedded here are exactly the ones
`build_notifier` consumes: `cfg.notifier_type : String`,
`cfg.webhook : Option<WebhookSettings>` with `url`, `method` and optional
`headers` (defaulted to the empty list by `unwrap_or(vec![])`). -/

/-- Webhook parameters consumed by `WebhookNotifier::new`. -/
structure WebhookSettings where
  url : String
  method : String
  headers : Option (List (String × String))
deriving Repr, DecidableEq

/-- The slice of `config::Settings` read by `build_notifier`. -/
structure Settings where
  notifier_type : String
  webhook : Option WebhookSettings
deriving Repr, DecidableEq

/-- The two notifier implementations selectable by `build_notifier`. -/
inductive NotifierImpl where
  | webhookNotifier (url : String) (method : String) (headers : List (String × String))
  | noOpNotifier
deriving Repr, DecidableEq

/-- `build_notifier(cfg)`: `"webhook"` requires webhook settings and yields a
`WebhookNotifier`; `"noop"` yields a `NoOpNotifier`; anything else is an
error.  `main` calls `.unwrap()` on the result before spawning any thread,
so an error aborts the process at startup. -/
def build_notifier (cfg : Settings) : Except String NotifierImpl :=
  if cfg.notifier_type = "webhook" then
    match cfg.webhook with
    | some wh => .ok (.webhookNotifier wh.url wh.method (wh.headers.getD []))
    | none => .error "no webhook settings found"
  else if cfg.notifier_type = "noop" then .ok .noOpNotifier
  else .error ("unsupported notifier: " ++ cfg.notifier_type)

/-- `main` evaluates `build_notifier(&settings).unwrap()` before spawning the
dispatcher and engine threads: `unwrap` panics on an `Err`, so a `none` here
is the process aborting at startup, and `build_notifier` is never called
again afterwards. -/
def mainStartupNotifier (cfg : Settings) : Option NotifierImpl :=
  (build_notifier cfg).toOption

end Dodemansknop

namespace Dodemansknop

/-! ## Basic lemmas about the registry and timer-list operations -/

theorem lookupReg_insertReg (r : List (String × Nat)) (k k' : String) (v : Nat) :
    lookupReg (insertReg r k v) k' = if k = k' then some v else lookupReg r k' := by
  induction r with
  | nil => simp [insertReg, lookupReg]
  | cons hd tl ih =>
    obtain ⟨k₀, v₀⟩ := hd
    by_cases h : k₀ = k
    · subst h
      by_cases h' : k₀ = k'
      · subst h'
        simp [insertReg, lookupReg]
      · simp [insertReg, lookupReg, h']
    · by_cases h' : k₀ = k'
      · subst h'
        have hne : ¬(k = k₀) := fun e => h e.symm
        simp [insertReg, lookupReg, h, hne]
      · simp [insertReg, lookupReg, h, h', ih]

theorem timers_decomp {ts : List TimerEntry} {i : Nat} {t : TimerEntry}
    (hi : ts[i]? = some t) : ts = ts.take i ++ t :: ts.drop (i + 1) := by
  rw [List.getElem?_eq_some] at hi
  obtain ⟨h, ht⟩ := hi
  conv_lhs => rw [← List.take_append_drop i ts, List.drop_eq_getElem_cons h, ht]

theorem set_decomp {ts : List TimerEntry} {i : Nat} {t : TimerEntry}
    (hi : ts[i]? = some t) (t' : TimerEntry) :
    ts.set i t' = ts.take i ++ t' :: ts.drop (i + 1) := by
  rw [List.getElem?_eq_some] at hi
  exact List.set_eq_take_cons_drop t' hi.1

theorem filter_key_decomp {ts : List TimerEntry} {i : Nat} {t : TimerEntry}
    (hi : ts[i]? = some t) (k : String) :
    ts.filter (fun x => x.key = k) =
      ((ts.take i).filter (fun x => x.key = k) ++
        (if t.key = k then [t] else [])) ++
        (ts.drop (i + 1)).filter (fun x => x.key = k) := by
  conv_lhs => rw [timers_decomp hi]
  rw [List.filter_append, List.filter_cons]
  by_cases hk : t.key = k
  · simp [hk]
  · simp [hk]

theorem filter_key_set {ts : List TimerEntry} {i : Nat} {t : TimerEntry}
    (t' : TimerEntry) (hi : ts[i]? = some t) (k : String) :
    (ts.set i t').filter (fun x => x.key = k) =
      ((ts.take i).filter (fun x => x.key = k) ++
        (if t'.key = k then [t'] else [])) ++
        (ts.drop (i + 1)).filter (fun x => x.key = k) := by
  rw [set_decomp hi t', List.filter_append, List.filter_cons]
  by_cases hk : t'.key = k
  · simp [hk]
  · simp [hk]

/-- The guard-cancellation chain relation: each superseded timer's guard was
dropped exactly when its successor was created. -/
def Rcancel (a b : TimerEntry) : Prop := a.cancelledAt = some b.created

/-- The inductive invariant of the engine, timer subsystem and alert
channel. -/
structure Inv (s : EngineState) : Prop where
  deadline_eq : ∀ t ∈ s.timers, t.deadline = t.created + gracePeriod
  created_le : ∀ t ∈ s.timers, t.created ≤ s.now
  inflight_le : ∀ t ∈ s.timers, ∀ τ, t.inflightAt = some τ → τ ≤ s.now
  inflight_deadline : ∀ t ∈ s.timers, ∀ τ, t.inflightAt = some τ → t.deadline ≤ τ
  inflight_cancel : ∀ t ∈ s.timers, ∀ τ c, t.inflightAt = some τ →
      t.cancelledAt = some c → τ ≤ c
  fired_inflight : ∀ t ∈ s.timers, t.firedAt.isSome → t.inflightAt.isSome
  reg_sound : ∀ k j, lookupReg s.registry k = some j →
      ∃ tj, s.timers[j]? = some tj ∧ tj.key = k ∧ tj.cancelledAt = none ∧
        ∀ l tl, s.timers[l]? = some tl → tl.key = k → l ≤ j
  reg_complete : ∀ i t, s.timers[i]? = some t → t.cancelledAt = none →
      lookupReg s.registry t.key = some i
  reg_keys : ∀ k, (lookupReg s.registry k).isSome = true ↔ ∃ t ∈ s.timers, t.key = k
  alert_eq : ∀ k, alertCount s k =
      ((timersFor s k).filter (fun t => t.firedAt.isSome)).length
  consec : ∀ k, List.Chain' Rcancel (timersFor s k)
  last_alive : ∀ k t, (timersFor s k).getLast? = some t → t.cancelledAt = none

theorem inv_init : Inv initState := by
  constructor <;> simp [initState, alertCount, timersFor, lookupReg]

end Dodemansknop

namespace Dodemansknop

/-! ## Invariant preservation helpers: replacing one timer entry in place

`beginFire` and `endFire` replace the entry at one index with an entry that
has the same key, creation time, deadline and cancellation time; these
lemmas transfer the filtered-list invariants across such a replacement. -/

theorem chain'_Rcancel_set (t' : TimerEntry) {ts : List TimerEntry} {i : Nat}
    {t : TimerEntry}
    (hi : ts[i]? = some t) (hkey : t'.key = t.key) (hcr : t'.created = t.created)
    (hca : t'.cancelledAt = t.cancelledAt) (k : String)
    (h : List.Chain' Rcancel (ts.filter (fun x => x.key = k))) :
    List.Chain' Rcancel ((ts.set i t').filter (fun x => x.key = k)) := by
  rw [filter_key_set t' hi k, hkey]
  rw [filter_key_decomp hi k] at h
  by_cases hk : t.key = k
  · rw [if_pos hk] at h ⊢
    rw [List.chain'_append] at h ⊢
    refine ⟨?_, h.2.1, ?_⟩
    · rw [List.chain'_append] at h ⊢
      refine ⟨h.1.1, List.chain'_singleton t', ?_⟩
      intro x hx y hy
      simp only [List.head?_cons, Option.mem_def, Option.some.injEq] at hy
      have hR := h.1.2.2 x hx t (by simp)
      subst hy
      simpa [Rcancel, hcr] using hR
    · intro x hx y hy
      rw [List.getLast?_append] at hx
      simp only [List.getLast?_singleton, Option.or_some, Option.mem_def,
        Option.some.injEq] at hx
      have hR := h.2.2 t (by rw [List.getLast?_append]; simp) y hy
      subst hx
      simpa [Rcancel, hca] using hR
  · rw [if_neg hk] at h ⊢
    exact h

theorem lastAlive_set (t' : TimerEntry) {ts : List TimerEntry} {i : Nat}
    {t : TimerEntry}
    (hi : ts[i]? = some t) (hkey : t'.key = t.key)
    (hca : t'.cancelledAt = t.cancelledAt) (k : String)
    (h : ∀ u, (ts.filter (fun x => x.key = k)).getLast? = some u →
      u.cancelledAt = none) :
    ∀ u, ((ts.set i t').filter (fun x => x.key = k)).getLast? = some u →
      u.cancelledAt = none := by
  intro u hu
  rw [filter_key_set t' hi k, hkey] at hu
  by_cases hk : t.key = k
  · rw [if_pos hk, List.getLast?_append] at hu
    cases hB : ((ts.drop (i + 1)).filter (fun x => x.key = k)).getLast? with
    | some b =>
        rw [hB, Option.or_some] at hu
        injection hu with hu
        subst hu
        exact h b (by
          rw [filter_key_decomp hi k, if_pos hk, List.getLast?_append, hB,
            Option.or_some])
    | none =>
        rw [hB, Option.none_or, List.getLast?_append] at hu
        simp only [List.getLast?_singleton, Option.or_some] at hu
        injection hu with hu
        subst hu
        rw [hca]
        exact h t (by
          rw [filter_key_decomp hi k, if_pos hk, List.getLast?_append, hB,
            Option.none_or, List.getLast?_append]
          simp)
  · rw [if_neg hk] at hu
    exact h u (by rw [filter_key_decomp hi k, if_neg hk]; exact hu)

theorem firedLen_set (t' : TimerEntry) {ts : List TimerEntry} {i : Nat}
    {t : TimerEntry}
    (hi : ts[i]? = some t) (hkey : t'.key = t.key)
    (hfired : t'.firedAt = t.firedAt) (k : String) :
    (((ts.set i t').filter (fun x => x.key = k)).filter
        (fun x => x.firedAt.isSome)).length =
      ((ts.filter (fun x => x.key = k)).filter (fun x => x.firedAt.isSome)).length := by
  rw [filter_key_set t' hi k, filter_key_decomp hi k, hkey]
  by_cases hk : t.key = k
  · rw [if_pos hk, if_pos hk]
    simp only [List.filter_append, List.filter_cons, List.length_append, hfired]
    by_cases hf : t.firedAt.isSome = true <;> simp [hf]
  · rw [if_neg hk, if_neg hk]

theorem exists_key_set (t' : TimerEntry) {ts : List TimerEntry} {i : Nat}
    {t : TimerEntry}
    (hi : ts[i]? = some t) (hkey : t'.key = t.key) (k : String) :
    (∃ x ∈ ts.set i t', x.key = k) ↔ ∃ x ∈ ts, x.key = k := by
  constructor
  · rintro ⟨x, hx, hxk⟩
    rcases List.mem_or_eq_of_mem_set hx with h | rfl
    · exact ⟨x, h, hxk⟩
    · exact ⟨t, List.mem_iff_getElem?.mpr ⟨i, hi⟩, hkey ▸ hxk⟩
  · rintro ⟨x, hx, hxk⟩
    rw [timers_decomp hi] at hx
    rw [set_decomp hi t']
    rcases List.mem_append.mp hx with h | h
    · exact ⟨x, List.mem_append.mpr (Or.inl h), hxk⟩
    · rcases List.mem_cons.mp h with rfl | h
      · exact ⟨t', List.mem_append.mpr (Or.inr (List.mem_cons_self _ _)),
          hkey.trans hxk⟩
      · exact ⟨x, List.mem_append.mpr (Or.inr (List.mem_cons_of_mem _ h)), hxk⟩

end Dodemansknop

namespace Dodemansknop

theorem reg_sound_set {s : EngineState} (hs : Inv s) (t' : TimerEntry) {i : Nat}
    {t : TimerEntry}
    (hi : s.timers[i]? = some t) (hkey : t'.key = t.key)
    (hca : t'.cancelledAt = t.cancelledAt) :
    ∀ k j, lookupReg s.registry k = some j →
      ∃ tj, (s.timers.set i t')[j]? = some tj ∧ tj.key = k ∧ tj.cancelledAt = none ∧
        ∀ l tl, (s.timers.set i t')[l]? = some tl → tl.key = k → l ≤ j := by
  intro k j hj
  obtain ⟨tj, hjt, hjk, hjc, hmax⟩ := hs.reg_sound k j hj
  have hilen : i < s.timers.length := (List.getElem?_eq_some.mp hi).1
  by_cases hij : i = j
  · subst hij
    have htj : tj = t := by rw [hi] at hjt; injection hjt with e; exact e.symm
    subst htj
    refine ⟨t', List.getElem?_set_self hilen, hkey.trans hjk, hca.trans hjc, ?_⟩
    intro l tl hl hkl
    by_cases hli : l = i
    · omega
    · rw [List.getElem?_set_ne (fun e => hli e.symm)] at hl
      exact hmax l tl hl hkl
  · refine ⟨tj, by rw [List.getElem?_set_ne hij]; exact hjt, hjk, hjc, ?_⟩
    intro l tl hl hkl
    by_cases hli : l = i
    · subst hli
      rw [List.getElem?_set_self hilen] at hl
      injection hl with hl
      subst hl
      exact hmax l t hi ((hkey.symm.trans hkl))
    · rw [List.getElem?_set_ne (fun e => hli e.symm)] at hl
      exact hmax l tl hl hkl

theorem reg_complete_set {s : EngineState} (hs : Inv s) (t' : TimerEntry) {i : Nat}
    {t : TimerEntry}
    (hi : s.timers[i]? = some t) (hkey : t'.key = t.key)
    (hca : t'.cancelledAt = t.cancelledAt) :
    ∀ l u, (s.timers.set i t')[l]? = some u → u.cancelledAt = none →
      lookupReg s.registry u.key = some l := by
  intro l u hu hc
  have hilen : i < s.timers.length := (List.getElem?_eq_some.mp hi).1
  by_cases hli : l = i
  · subst hli
    rw [List.getElem?_set_self hilen] at hu
    injection hu with hu
    subst hu
    have : t.cancelledAt = none := hca ▸ hc
    have := hs.reg_complete l t hi this
    rw [hkey]
    exact this
  · rw [List.getElem?_set_ne (fun e => hli e.symm)] at hu
    exact hs.reg_complete l u hu hc

theorem inv_step_tick {s s' : EngineState} (hs : Inv s)
    (h : step .tick s = some s') : Inv s' := by
  simp only [step] at h
  injection h with h
  subst h
  exact {
    deadline_eq := hs.deadline_eq
    created_le := fun t ht => Nat.le_succ_of_le (hs.created_le t ht)
    inflight_le := fun t ht τ hτ => Nat.le_succ_of_le (hs.inflight_le t ht τ hτ)
    inflight_deadline := hs.inflight_deadline
    inflight_cancel := hs.inflight_cancel
    fired_inflight := hs.fired_inflight
    reg_sound := hs.reg_sound
    reg_complete := hs.reg_complete
    reg_keys := hs.reg_keys
    alert_eq := hs.alert_eq
    consec := hs.consec
    last_alive := hs.last_alive }

theorem inv_step_beginFire {s s' : EngineState} {i : Nat} (hs : Inv s)
    (h : step (.beginFire i) s = some s') : Inv s' := by
  simp only [step] at h
  cases hi : s.timers[i]? with
  | none => rw [hi] at h; exact Option.noConfusion h
  | some t =>
    rw [hi] at h
    dsimp only at h
    by_cases hc : t.cancelledAt = none ∧ t.inflightAt = none ∧ t.deadline ≤ s.now
    case neg => rw [if_neg hc] at h; exact Option.noConfusion h
    case pos =>
      rw [if_pos hc] at h
      obtain ⟨hc1, hc2, hc3⟩ := hc
      injection h with h
      subst h
      have hmemt : t ∈ s.timers := List.mem_iff_getElem?.mpr ⟨i, hi⟩
      refine {
        deadline_eq := ?_, created_le := ?_, inflight_le := ?_,
        inflight_deadline := ?_, inflight_cancel := ?_, fired_inflight := ?_,
        reg_sound := reg_sound_set hs { t with inflightAt := some s.now } hi rfl rfl,
        reg_complete := reg_complete_set hs { t with inflightAt := some s.now } hi rfl rfl,
        reg_keys := fun k => (hs.reg_keys k).trans
          (exists_key_set { t with inflightAt := some s.now } hi rfl k).symm,
        alert_eq := ?_,
        consec := fun k => chain'_Rcancel_set { t with inflightAt := some s.now }
          hi rfl rfl rfl k (hs.consec k),
        last_alive := fun k => lastAlive_set { t with inflightAt := some s.now }
          hi rfl rfl k (hs.last_alive k) }
      · intro x hx
        rcases List.mem_or_eq_of_mem_set hx with hx | rfl
        · exact hs.deadline_eq x hx
        · exact hs.deadline_eq t hmemt
      · intro x hx
        rcases List.mem_or_eq_of_mem_set hx with hx | rfl
        · exact hs.created_le x hx
        · exact hs.created_le t hmemt
      · intro x hx τ hτ
        rcases List.mem_or_eq_of_mem_set hx with hx | rfl
        · exact hs.inflight_le x hx τ hτ
        · injection hτ with hτ
          show τ ≤ s.now
          omega
      · intro x hx τ hτ
        rcases List.mem_or_eq_of_mem_set hx with hx | rfl
        · exact hs.inflight_deadline x hx τ hτ
        · injection hτ with hτ
          subst hτ
          exact hc3
      · intro x hx τ c hτ hcc
        rcases List.mem_or_eq_of_mem_set hx with hx | rfl
        · exact hs.inflight_cancel x hx τ c hτ hcc
        · rw [show ({ t with inflightAt := some s.now } : TimerEntry).cancelledAt
            = t.cancelledAt from rfl, hc1] at hcc
          exact Option.noConfusion hcc
      · intro x hx hf
        rcases List.mem_or_eq_of_mem_set hx with hx | rfl
        · exact hs.fired_inflight x hx hf
        · rfl
      · intro k
        have h1 := hs.alert_eq k
        simp only [alertCount, timersFor] at h1 ⊢
        rw [firedLen_set { t with inflightAt := some s.now } hi rfl rfl k]
        exact h1

end Dodemansknop

namespace Dodemansknop

theorem inv_step_endFire {s s' : EngineState} {i : Nat} (hs : Inv s)
    (h : step (.endFire i) s = some s') : Inv s' := by
  simp only [step] at h
  cases hi : s.timers[i]? with
  | none => rw [hi] at h; exact Option.noConfusion h
  | some t =>
    rw [hi] at h
    dsimp only at h
    by_cases hc : t.inflightAt.isSome = true ∧ t.firedAt = none
    case neg => rw [if_neg hc] at h; exact Option.noConfusion h
    case pos =>
      rw [if_pos hc] at h
      obtain ⟨hinf, hfr⟩ := hc
      injection h with h
      subst h
      have hmemt : t ∈ s.timers := List.mem_iff_getElem?.mpr ⟨i, hi⟩
      refine {
        deadline_eq := ?_, created_le := ?_, inflight_le := ?_,
        inflight_deadline := ?_, inflight_cancel := ?_, fired_inflight := ?_,
        reg_sound := reg_sound_set hs { t with firedAt := some s.now } hi rfl rfl,
        reg_complete := reg_complete_set hs { t with firedAt := some s.now } hi rfl rfl,
        reg_keys := fun k => (hs.reg_keys k).trans
          (exists_key_set { t with firedAt := some s.now } hi rfl k).symm,
        alert_eq := ?_,
        consec := fun k => chain'_Rcancel_set { t with firedAt := some s.now }
          hi rfl rfl rfl k (hs.consec k),
        last_alive := fun k => lastAlive_set { t with firedAt := some s.now }
          hi rfl rfl k (hs.last_alive k) }
      · intro x hx
        rcases List.mem_or_eq_of_mem_set hx with hx | rfl
        · exact hs.deadline_eq x hx
        · exact hs.deadline_eq t hmemt
      · intro x hx
        rcases List.mem_or_eq_of_mem_set hx with hx | rfl
        · exact hs.created_le x hx
        · exact hs.created_le t hmemt
      · intro x hx τ hτ
        rcases List.mem_or_eq_of_mem_set hx with hx | rfl
        · exact hs.inflight_le x hx τ hτ
        · exact hs.inflight_le t hmemt τ hτ
      · intro x hx τ hτ
        rcases List.mem_or_eq_of_mem_set hx with hx | rfl
        · exact hs.inflight_deadline x hx τ hτ
        · exact hs.inflight_deadline t hmemt τ hτ
      · intro x hx τ c hτ hcc
        rcases List.mem_or_eq_of_mem_set hx with hx | rfl
        · exact hs.inflight_cancel x hx τ c hτ hcc
        · exact hs.inflight_cancel t hmemt τ c hτ hcc
      · intro x hx _
        rcases List.mem_or_eq_of_mem_set hx with hx | rfl
        · exact hs.fired_inflight x hx (by assumption)
        · exact hinf
      · intro k
        have h1 := hs.alert_eq k
        simp only [alertCount, timersFor] at h1 ⊢
        have hL : ((s.alerts ++ [t.key]).filter (fun a => a = k)).length
            = (s.alerts.filter (fun a => a = k)).length
              + (if t.key = k then 1 else 0) := by
          rw [List.filter_append, List.length_append]
          by_cases hk : t.key = k <;> simp [hk]
        have hR : (((s.timers.set i { t with firedAt := some s.now }).filter
              (fun x => x.key = k)).filter (fun x => x.firedAt.isSome)).length
            = ((s.timers.filter (fun x => x.key = k)).filter
                (fun x => x.firedAt.isSome)).length
              + (if t.key = k then 1 else 0) := by
          rw [filter_key_set { t with firedAt := some s.now } hi k,
            filter_key_decomp hi k,
            show ({ t with firedAt := some s.now } : TimerEntry).key = t.key from rfl]
          by_cases hk : t.key = k
          · simp only [hk, if_pos, List.filter_append, List.filter_cons,
              List.length_append, hfr]
            simp
            omega
          · simp [hk]
        rw [hL, hR, h1]

end Dodemansknop

namespace Dodemansknop

theorem inv_step_ping_new {s : EngineState} {k : String} (hs : Inv s)
    (hreg : lookupReg s.registry k = none) :
    Inv { s with timers := s.timers ++ [freshTimer k s.now],
                 registry := insertReg s.registry k s.timers.length } := by
  have hnok : ∀ x ∈ s.timers, x.key ≠ k := by
    intro x hx hxk
    have hsome : (lookupReg s.registry k).isSome = true :=
      (hs.reg_keys k).mpr ⟨x, hx, hxk⟩
    rw [hreg] at hsome
    exact Bool.noConfusion hsome
  have hfreshmem : freshTimer k s.now ∈ s.timers ++ [freshTimer k s.now] := by simp
  refine {
    deadline_eq := ?_, created_le := ?_, inflight_le := ?_, inflight_deadline := ?_,
    inflight_cancel := ?_, fired_inflight := ?_, reg_sound := ?_, reg_complete := ?_,
    reg_keys := ?_, alert_eq := ?_, consec := ?_, last_alive := ?_ }
  · intro x hx
    rcases List.mem_append.mp hx with hx | hx
    · exact hs.deadline_eq x hx
    · rw [List.mem_singleton] at hx; subst hx; rfl
  · intro x hx
    rcases List.mem_append.mp hx with hx | hx
    · exact hs.created_le x hx
    · rw [List.mem_singleton] at hx; subst hx; exact Nat.le_refl _
  · intro x hx τ hτ
    rcases List.mem_append.mp hx with hx | hx
    · exact hs.inflight_le x hx τ hτ
    · rw [List.mem_singleton] at hx; subst hx; exact Option.noConfusion hτ
  · intro x hx τ hτ
    rcases List.mem_append.mp hx with hx | hx
    · exact hs.inflight_deadline x hx τ hτ
    · rw [List.mem_singleton] at hx; subst hx; exact Option.noConfusion hτ
  · intro x hx τ c hτ hcc
    rcases List.mem_append.mp hx with hx | hx
    · exact hs.inflight_cancel x hx τ c hτ hcc
    · rw [List.mem_singleton] at hx; subst hx; exact Option.noConfusion hτ
  · intro x hx hf
    rcases List.mem_append.mp hx with hx | hx
    · exact hs.fired_inflight x hx hf
    · rw [List.mem_singleton] at hx; subst hx; exact Bool.noConfusion hf
  · intro k₁ j hj
    rw [lookupReg_insertReg] at hj
    by_cases hkk : k = k₁
    · subst hkk
      rw [if_pos rfl] at hj
      injection hj with hj
      subst hj
      refine ⟨freshTimer k s.now, ?_, rfl, rfl, ?_⟩
      · rw [List.getElem?_append_right (Nat.le_refl _)]
        simp
      · intro l tl hl hkl
        have hllen : l < s.timers.length + 1 := by
          obtain ⟨hb, _⟩ := List.getElem?_eq_some.mp hl
          simpa using hb
        by_cases hlt : l < s.timers.length
        · rw [List.getElem?_append_left hlt] at hl
          exact absurd hkl (hnok tl (List.mem_iff_getElem?.mpr ⟨l, hl⟩))
        · omega
    · rw [if_neg hkk] at hj
      obtain ⟨tj, hjt, hjk, hjc, hmax⟩ := hs.reg_sound k₁ j hj
      have hjlen : j < s.timers.length := (List.getElem?_eq_some.mp hjt).1
      refine ⟨tj, ?_, hjk, hjc, ?_⟩
      · rw [List.getElem?_append_left hjlen]; exact hjt
      · intro l tl hl hkl
        by_cases hlt : l < s.timers.length
        · rw [List.getElem?_append_left hlt] at hl
          exact hmax l tl hl hkl
        · have hllen : l < s.timers.length + 1 := by
            obtain ⟨hb, _⟩ := List.getElem?_eq_some.mp hl
            simpa using hb
          have hleq : l = s.timers.length := by omega
          subst hleq
          rw [List.getElem?_append_right (Nat.le_refl _)] at hl
          simp only [Nat.sub_self, List.getElem?_cons_zero] at hl
          injection hl with hl
          subst hl
          exact absurd (show k = k₁ from hkl) hkk
  · intro i x hi hc
    by_cases hlt : i < s.timers.length
    · rw [List.getElem?_append_left hlt] at hi
      have h0 := hs.reg_complete i x hi hc
      have hxk : x.key ≠ k := hnok x (List.mem_iff_getElem?.mpr ⟨i, hi⟩)
      rw [lookupReg_insertReg, if_neg (fun e => hxk e.symm)]
      exact h0
    · have hilen : i < s.timers.length + 1 := by
        obtain ⟨hb, _⟩ := List.getElem?_eq_some.mp hi
        simpa using hb
      have hieq : i = s.timers.length := by omega
      subst hieq
      rw [List.getElem?_append_right (Nat.le_refl _)] at hi
      simp only [Nat.sub_self, List.getElem?_cons_zero] at hi
      injection hi with hi
      subst hi
      rw [lookupReg_insertReg, show (freshTimer k s.now).key = k from rfl, if_pos rfl]
  · intro k₁
    rw [lookupReg_insertReg]
    by_cases hkk : k = k₁
    · subst hkk
      rw [if_pos rfl]
      exact iff_of_true rfl ⟨freshTimer k s.now, hfreshmem, rfl⟩
    · rw [if_neg hkk, hs.reg_keys k₁]
      constructor
      · rintro ⟨x, hx, hxk⟩
        exact ⟨x, List.mem_append.mpr (Or.inl hx), hxk⟩
      · rintro ⟨x, hx, hxk⟩
        rcases List.mem_append.mp hx with hx | hx
        · exact ⟨x, hx, hxk⟩
        · rw [List.mem_singleton] at hx
          subst hx
          exact absurd (show k = k₁ from hxk) hkk
  · intro k₁
    have h1 := hs.alert_eq k₁
    simp only [alertCount, timersFor, List.filter_append] at h1 ⊢
    by_cases hkk : k = k₁
    · subst hkk
      simp only [List.filter_filter] at h1
      simp [freshTimer]
      exact h1
    · simp only [List.filter_filter] at h1
      simp [freshTimer, hkk]
      exact h1
  · intro k₁
    simp only [timersFor, List.filter_append]
    by_cases hkk : k = k₁
    · subst hkk
      have hnil : s.timers.filter (fun x => x.key = k) = [] :=
        List.filter_eq_nil_iff.mpr (fun a ha hak => hnok a ha (by simpa using hak))
      rw [hnil]
      simp [freshTimer]
    · have hfr : ([freshTimer k s.now]).filter (fun x => x.key = k₁) = [] := by
        simp [freshTimer, hkk]
      rw [hfr, List.append_nil]
      exact hs.consec k₁
  · intro k₁ u hu
    simp only [timersFor, List.filter_append] at hu
    by_cases hkk : k = k₁
    · subst hkk
      have hnil : s.timers.filter (fun x => x.key = k) = [] :=
        List.filter_eq_nil_iff.mpr (fun a ha hak => hnok a ha (by simpa using hak))
      rw [hnil] at hu
      simp only [List.nil_append] at hu
      have : ([freshTimer k s.now]).filter (fun x => x.key = k) = [freshTimer k s.now] := by
        simp [freshTimer]
      rw [this] at hu
      simp only [List.getLast?_singleton] at hu
      injection hu with hu
      subst hu
      rfl
    · have hfr : ([freshTimer k s.now]).filter (fun x => x.key = k₁) = [] := by
        simp [freshTimer, hkk]
      rw [hfr, List.append_nil] at hu
      exact hs.last_alive k₁ u hu

end Dodemansknop

namespace Dodemansknop

theorem inv_step_ping_renew {s : EngineState} {k : String} {j : Nat} (hs : Inv s)
    (hreg : lookupReg s.registry k = some j) :
    Inv { s with timers := cancelTimer (s.timers ++ [freshTimer k s.now]) j s.now,
                 registry := insertReg s.registry k s.timers.length } := by
  obtain ⟨tj, hjt, hjk, hjc, hmax⟩ := hs.reg_sound k j hreg
  have hjlen : j < s.timers.length := (List.getElem?_eq_some.mp hjt).1
  have happ_j : (s.timers ++ [freshTimer k s.now])[j]? = some tj := by
    rw [List.getElem?_append_left hjlen]; exact hjt
  have hset : cancelTimer (s.timers ++ [freshTimer k s.now]) j s.now
      = (s.timers ++ [freshTimer k s.now]).set j { tj with cancelledAt := some s.now } := by
    simp only [cancelTimer, happ_j, hjc, Option.none_orElse]
  rw [hset]
  have hBnok : ∀ x ∈ s.timers.drop (j + 1), x.key ≠ k := by
    intro x hx hxk
    obtain ⟨m, hm⟩ := List.mem_iff_getElem?.mp hx
    rw [List.getElem?_drop] at hm
    have := hmax (j + 1 + m) x hm hxk
    omega
  have hnew_eq : (s.timers ++ [freshTimer k s.now]).set j
        { tj with cancelledAt := some s.now }
      = s.timers.take j ++ { tj with cancelledAt := some s.now }
          :: (s.timers.drop (j + 1) ++ [freshTimer k s.now]) := by
    rw [set_decomp happ_j]
    rw [List.take_append_of_le_length (Nat.le_of_lt hjlen)]
    rw [List.drop_append_of_le_length (by omega)]
  have hold_eq : s.timers = s.timers.take j ++ tj :: s.timers.drop (j + 1) :=
    timers_decomp hjt
  have htjmem : tj ∈ s.timers := List.mem_iff_getElem?.mpr ⟨j, hjt⟩
  have hmem_new : ∀ x ∈ (s.timers ++ [freshTimer k s.now]).set j
        { tj with cancelledAt := some s.now },
      x ∈ s.timers ∨ x = { tj with cancelledAt := some s.now }
        ∨ x = freshTimer k s.now := by
    intro x hx
    rcases List.mem_or_eq_of_mem_set hx with hx | rfl
    · rcases List.mem_append.mp hx with hx | hx
      · exact Or.inl hx
      · rw [List.mem_singleton] at hx; exact Or.inr (Or.inr hx)
    · exact Or.inr (Or.inl rfl)
  have hBnil : (s.timers.drop (j + 1)).filter (fun x => x.key = k) = [] :=
    List.filter_eq_nil_iff.mpr (fun a ha hak => hBnok a ha (by simpa using hak))
  have hfilt_old : s.timers.filter (fun x => x.key = k)
      = (s.timers.take j).filter (fun x => x.key = k) ++ [tj] := by
    conv_lhs => rw [hold_eq]
    rw [List.filter_append, List.filter_cons, hBnil]
    simp [hjk]
  have hfilt_new : ((s.timers ++ [freshTimer k s.now]).set j
        { tj with cancelledAt := some s.now }).filter (fun x => x.key = k)
      = (s.timers.take j).filter (fun x => x.key = k)
          ++ [{ tj with cancelledAt := some s.now }, freshTimer k s.now] := by
    rw [hnew_eq, List.filter_append, List.filter_cons, List.filter_append, hBnil]
    have h1 : (({ tj with cancelledAt := some s.now } : TimerEntry).key = k) := hjk
    have h2 : ((freshTimer k s.now).key = k) := rfl
    simp [h1, h2, hjk]
  have hfilt_ne : ∀ k₁, k ≠ k₁ →
      ((s.timers ++ [freshTimer k s.now]).set j
          { tj with cancelledAt := some s.now }).filter (fun x => x.key = k₁)
        = s.timers.filter (fun x => x.key = k₁) := by
    intro k₁ hkk
    rw [hnew_eq]
    conv_rhs => rw [hold_eq]
    have h1 : ¬(({ tj with cancelledAt := some s.now } : TimerEntry).key = k₁) := by
      show ¬(tj.key = k₁)
      rw [hjk]
      exact hkk
    have h2 : ¬((freshTimer k s.now).key = k₁) := by
      show ¬(k = k₁)
      exact hkk
    have h3 : ¬(tj.key = k₁) := by rw [hjk]; exact hkk
    simp [List.filter_append, List.filter_cons, h1, h2, h3]
  refine {
    deadline_eq := ?_, created_le := ?_, inflight_le := ?_, inflight_deadline := ?_,
    inflight_cancel := ?_, fired_inflight := ?_, reg_sound := ?_, reg_complete := ?_,
    reg_keys := ?_, alert_eq := ?_, consec := ?_, last_alive := ?_ }
  · intro x hx
    rcases hmem_new x hx with hx | rfl | rfl
    · exact hs.deadline_eq x hx
    · exact hs.deadline_eq tj htjmem
    · rfl
  · intro x hx
    rcases hmem_new x hx with hx | rfl | rfl
    · exact hs.created_le x hx
    · exact hs.created_le tj htjmem
    · exact Nat.le_refl _
  · intro x hx τ hτ
    rcases hmem_new x hx with hx | rfl | rfl
    · exact hs.inflight_le x hx τ hτ
    · exact hs.inflight_le tj htjmem τ hτ
    · exact Option.noConfusion hτ
  · intro x hx τ hτ
    rcases hmem_new x hx with hx | rfl | rfl
    · exact hs.inflight_deadline x hx τ hτ
    · exact hs.inflight_deadline tj htjmem τ hτ
    · exact Option.noConfusion hτ
  · intro x hx τ c hτ hcc
    rcases hmem_new x hx with hx | rfl | rfl
    · exact hs.inflight_cancel x hx τ c hτ hcc
    · have hτ' : tj.inflightAt = some τ := hτ
      have hc' : some s.now = some c := hcc
      injection hc' with hc'
      subst hc'
      exact hs.inflight_le tj htjmem τ hτ'
    · exact Option.noConfusion hτ
  · intro x hx hf
    rcases hmem_new x hx with hx | rfl | rfl
    · exact hs.fired_inflight x hx hf
    · exact hs.fired_inflight tj htjmem hf
    · exact Bool.noConfusion hf
  · intro k₁ j₁ hj₁
    rw [lookupReg_insertReg] at hj₁
    by_cases hkk : k = k₁
    · subst hkk
      rw [if_pos rfl] at hj₁
      injection hj₁ with hj₁
      subst hj₁
      refine ⟨freshTimer k s.now, ?_, rfl, rfl, ?_⟩
      · rw [List.getElem?_set_ne (by omega : j ≠ s.timers.length),
          List.getElem?_append_right (Nat.le_refl _)]
        simp
      · intro l tl hl hkl
        obtain ⟨hb, _⟩ := List.getElem?_eq_some.mp hl
        simp only [List.length_set, List.length_append, List.length_singleton] at hb
        omega
    · rw [if_neg hkk] at hj₁
      obtain ⟨t₁, h₁t, h₁k, h₁c, h₁max⟩ := hs.reg_sound k₁ j₁ hj₁
      have h₁len : j₁ < s.timers.length := (List.getElem?_eq_some.mp h₁t).1
      have hne : j₁ ≠ j := by
        intro e
        subst e
        rw [hjt] at h₁t
        injection h₁t with e'
        exact hkk (hjk.symm.trans (e' ▸ h₁k))
      refine ⟨t₁, ?_, h₁k, h₁c, ?_⟩
      · rw [List.getElem?_set_ne (fun e => hne e.symm),
          List.getElem?_append_left h₁len]
        exact h₁t
      · intro l tl hl hkl
        by_cases hlj : l = j
        · subst hlj
          rw [List.getElem?_set_self (by
            simp only [List.length_append, List.length_singleton]; omega)] at hl
          injection hl with hl
          subst hl
          have hk₁ : tj.key = k₁ := hkl
          exact absurd (hjk.symm.trans hk₁) hkk
        · rw [List.getElem?_set_ne (fun e => hlj e.symm)] at hl
          by_cases hlt : l < s.timers.length
          · rw [List.getElem?_append_left hlt] at hl
            exact h₁max l tl hl hkl
          · obtain ⟨hb, _⟩ := List.getElem?_eq_some.mp hl
            have hleq : l = s.timers.length := by
              simp only [List.length_append, List.length_singleton] at hb
              omega
            subst hleq
            rw [List.getElem?_append_right (Nat.le_refl _)] at hl
            simp only [Nat.sub_self, List.getElem?_cons_zero] at hl
            injection hl with hl
            subst hl
            exact absurd (show k = k₁ from hkl) hkk
  · intro i x hi hc
    by_cases hij : i = j
    · subst hij
      rw [List.getElem?_set_self (by
        simp only [List.length_append, List.length_singleton]; omega)] at hi
      injection hi with hi
      subst hi
      exact Option.noConfusion hc
    · rw [List.getElem?_set_ne (fun e => hij e.symm)] at hi
      by_cases hlt : i < s.timers.length
      · rw [List.getElem?_append_left hlt] at hi
        have h0 := hs.reg_complete i x hi hc
        have hxk : x.key ≠ k := by
          intro e
          rw [e, hreg] at h0
          injection h0 with h0
          exact hij h0.symm
        rw [lookupReg_insertReg, if_neg (fun e => hxk e.symm)]
        exact h0
      · obtain ⟨hb, _⟩ := List.getElem?_eq_some.mp hi
        have hieq : i = s.timers.length := by
          simp only [List.length_append, List.length_singleton] at hb
          omega
        subst hieq
        rw [List.getElem?_append_right (Nat.le_refl _)] at hi
        simp only [Nat.sub_self, List.getElem?_cons_zero] at hi
        injection hi with hi
        subst hi
        rw [lookupReg_insertReg, show (freshTimer k s.now).key = k from rfl,
          if_pos rfl]
  · intro k₁
    rw [lookupReg_insertReg]
    by_cases hkk : k = k₁
    · subst hkk
      rw [if_pos rfl]
      refine iff_of_true rfl ⟨freshTimer k s.now, ?_, rfl⟩
      rw [hnew_eq]
      simp
    · rw [if_neg hkk, hs.reg_keys k₁]
      constructor
      · rintro ⟨x, hx, hxk⟩
        rw [hold_eq] at hx
        rw [hnew_eq]
        rcases List.mem_append.mp hx with hx | hx
        · exact ⟨x, List.mem_append.mpr (Or.inl hx), hxk⟩
        · rcases List.mem_cons.mp hx with rfl | hx
          · exact ⟨{ x with cancelledAt := some s.now },
              List.mem_append.mpr (Or.inr (List.mem_cons_self _ _)), hxk⟩
          · exact ⟨x, List.mem_append.mpr (Or.inr (List.mem_cons_of_mem _
              (List.mem_append.mpr (Or.inl hx)))), hxk⟩
      · rintro ⟨x, hx, hxk⟩
        rw [hnew_eq] at hx
        rw [hold_eq]
        rcases List.mem_append.mp hx with hx | hx
        · exact ⟨x, List.mem_append.mpr (Or.inl hx), hxk⟩
        · rcases List.mem_cons.mp hx with rfl | hx
          · exact ⟨tj, List.mem_append.mpr (Or.inr (List.mem_cons_self _ _)), hxk⟩
          · rcases List.mem_append.mp hx with hx | hx
            · exact ⟨x, List.mem_append.mpr (Or.inr (List.mem_cons_of_mem _ hx)), hxk⟩
            · rw [List.mem_singleton] at hx
              subst hx
              exact absurd (show k = k₁ from hxk) hkk
  · intro k₁
    have h1 := hs.alert_eq k₁
    simp only [alertCount, timersFor] at h1 ⊢
    by_cases hkk : k = k₁
    · subst hkk
      rw [hfilt_new]
      rw [hfilt_old] at h1
      simp only [List.filter_append, List.length_append, List.filter_cons,
        freshTimer] at h1 ⊢
      by_cases hf : tj.firedAt.isSome = true <;> simp [hf] at h1 ⊢ <;> omega
    · rw [hfilt_ne k₁ hkk]
      exact h1
  · intro k₁
    simp only [timersFor]
    by_cases hkk : k = k₁
    · subst hkk
      rw [hfilt_new]
      have hold := hs.consec k
      simp only [timersFor] at hold
      rw [hfilt_old] at hold
      rw [List.chain'_append] at hold ⊢
      refine ⟨hold.1, ?_, ?_⟩
      · refine List.chain'_cons.mpr ⟨?_, List.chain'_singleton _⟩
        show ({ tj with cancelledAt := some s.now } : TimerEntry).cancelledAt
          = some (freshTimer k s.now).created
        rfl
      · intro x hx y hy
        simp only [List.head?_cons, Option.mem_def, Option.some.injEq] at hy
        have hR := hold.2.2 x hx tj (by simp)
        subst hy
        exact hR
    · rw [hfilt_ne k₁ hkk]
      exact hs.consec k₁
  · intro k₁ u hu
    simp only [timersFor] at hu
    by_cases hkk : k = k₁
    · subst hkk
      rw [hfilt_new] at hu
      rw [List.getLast?_append] at hu
      simp only [List.getLast?_cons_cons, List.getLast?_singleton,
        Option.or_some] at hu
      injection hu with hu
      subst hu
      rfl
    · rw [hfilt_ne k₁ hkk] at hu
      exact hs.last_alive k₁ u hu

end Dodemansknop

namespace Dodemansknop

theorem inv_step {e : Event} {s s' : EngineState} (hs : Inv s)
    (h : step e s = some s') : Inv s' := by
  cases e with
  | ping k =>
    simp only [step] at h
    cases hreg : lookupReg s.registry k with
    | none =>
      rw [hreg] at h
      dsimp only at h
      injection h with h
      subst h
      exact inv_step_ping_new hs hreg
    | some j =>
      rw [hreg] at h
      dsimp only at h
      injection h with h
      subst h
      exact inv_step_ping_renew hs hreg
  | tick => exact inv_step_tick hs h
  | beginFire i => exact inv_step_beginFire hs h
  | endFire i => exact inv_step_endFire hs h

theorem inv_run : ∀ {es : List Event} {s s' : EngineState}, Inv s →
    run es s = some s' → Inv s' := by
  intro es
  induction es with
  | nil =>
    intro s s' hs h
    simp only [run] at h
    injection h with h
    subst h
    exact hs
  | cons e es ih =>
    intro s s' hs h
    simp only [run] at h
    cases hstep : step e s with
    | none => rw [hstep] at h; exact Option.noConfusion h
    | some s₁ =>
      rw [hstep] at h
      dsimp only at h
      exact ih (inv_step hs hstep) h

end Dodemansknop

namespace Dodemansknop

/-! ## Counting lemmas relating traces to states -/

theorem filterLen_set (t' : TimerEntry) {ts : List TimerEntry} {i : Nat}
    {t : TimerEntry} (hi : ts[i]? = some t) (hkey : t'.key = t.key) (k : String) :
    ((ts.set i t').filter (fun x => x.key = k)).length
      = (ts.filter (fun x => x.key = k)).length := by
  rw [filter_key_set t' hi k, filter_key_decomp hi k, hkey]
  simp only [List.length_append]
  by_cases hk : t.key = k <;> simp [hk]

theorem length_timersFor_step {e : Event} {s s' : EngineState}
    (h : step e s = some s') (k : String) :
    (timersFor s' k).length
      = (timersFor s k).length + (if e = Event.ping k then 1 else 0) := by
  cases e with
  | tick =>
    simp only [step] at h
    injection h with h
    subst h
    simp [timersFor]
  | beginFire i =>
    simp only [step] at h
    cases hi : s.timers[i]? with
    | none => rw [hi] at h; exact Option.noConfusion h
    | some t =>
      rw [hi] at h
      dsimp only at h
      by_cases hc : t.cancelledAt = none ∧ t.inflightAt = none ∧ t.deadline ≤ s.now
      case neg => rw [if_neg hc] at h; exact Option.noConfusion h
      case pos =>
        rw [if_pos hc] at h
        injection h with h
        subst h
        simp only [timersFor]
        rw [filterLen_set { t with inflightAt := some s.now } hi rfl k]
        simp
  | endFire i =>
    simp only [step] at h
    cases hi : s.timers[i]? with
    | none => rw [hi] at h; exact Option.noConfusion h
    | some t =>
      rw [hi] at h
      dsimp only at h
      by_cases hc : t.inflightAt.isSome = true ∧ t.firedAt = none
      case neg => rw [if_neg hc] at h; exact Option.noConfusion h
      case pos =>
        rw [if_pos hc] at h
        injection h with h
        subst h
        simp only [timersFor]
        rw [filterLen_set { t with firedAt := some s.now } hi rfl k]
        simp
  | ping k' =>
    simp only [step] at h
    cases hreg : lookupReg s.registry k' with
    | none =>
      rw [hreg] at h
      dsimp only at h
      injection h with h
      subst h
      simp only [timersFor, List.filter_append, List.length_append]
      by_cases hkk : k' = k
      · subst hkk
        simp [freshTimer]
      · simp [freshTimer, hkk, Event.ping.injEq]
    | some j =>
      rw [hreg] at h
      dsimp only at h
      injection h with h
      subst h
      simp only [timersFor]
      cases he : (s.timers ++ [freshTimer k' s.now])[j]? with
      | none =>
        rw [show cancelTimer (s.timers ++ [freshTimer k' s.now]) j s.now
            = s.timers ++ [freshTimer k' s.now] by simp only [cancelTimer, he]]
        simp only [List.filter_append, List.length_append]
        by_cases hkk : k' = k
        · subst hkk
          simp [freshTimer]
        · simp [freshTimer, hkk, Event.ping.injEq]
      | some e =>
        rw [show cancelTimer (s.timers ++ [freshTimer k' s.now]) j s.now
            = (s.timers ++ [freshTimer k' s.now]).set j
                { e with cancelledAt := e.cancelledAt <|> some s.now }
          from by simp only [cancelTimer, he]]
        rw [filterLen_set { e with cancelledAt := e.cancelledAt <|> some s.now } he rfl k]
        simp only [List.filter_append, List.length_append]
        by_cases hkk : k' = k
        · subst hkk
          simp [freshTimer]
        · simp [freshTimer, hkk, Event.ping.injEq]

end Dodemansknop

namespace Dodemansknop

theorem length_timersFor_run : ∀ {es : List Event} {s s' : EngineState},
    run es s = some s' → ∀ k,
    (timersFor s' k).length = (timersFor s k).length + pingCount es k := by
  intro es
  induction es with
  | nil =>
    intro s s' h k
    simp only [run] at h
    injection h with h
    subst h
    simp [pingCount]
  | cons e es ih =>
    intro s s' h k
    simp only [run] at h
    cases hstep : step e s with
    | none => rw [hstep] at h; exact Option.noConfusion h
    | some s₁ =>
      rw [hstep] at h
      dsimp only at h
      have h1 := ih h k
      have h2 := length_timersFor_step hstep k
      have h3 : pingCount (e :: es) k
          = (if e = Event.ping k then 1 else 0) + pingCount es k := by
        simp only [pingCount, List.filter_cons]
        by_cases he : e = Event.ping k
        · simp [he]
          omega
        · simp [he]
      rw [h1, h2, h3]
      omega

theorem pingCount_pos_iff (es : List Event) (k : String) :
    0 < pingCount es k ↔ Event.ping k ∈ es := by
  constructor
  · intro hp
    obtain ⟨e, he⟩ := List.exists_mem_of_length_pos hp
    have := List.mem_filter.mp he
    have he' : e = Event.ping k := by simpa using this.2
    exact he' ▸ this.1
  · intro hm
    apply List.length_pos.mpr
    intro hnil
    have := List.filter_eq_nil_iff.mp hnil (Event.ping k) hm
    simp at this

theorem step_registry {e : Event} {s s' : EngineState} (h : step e s = some s') :
    (∃ k', e = .ping k' ∧ s'.registry = insertReg s.registry k' s.timers.length)
    ∨ (s'.registry = s.registry ∧ ∀ k', e ≠ .ping k') := by
  cases e with
  | ping k' =>
    left
    refine ⟨k', rfl, ?_⟩
    simp only [step] at h
    cases hreg : lookupReg s.registry k' with
    | none => rw [hreg] at h; dsimp only at h; injection h with h; subst h; rfl
    | some j => rw [hreg] at h; dsimp only at h; injection h with h; subst h; rfl
  | tick =>
    right
    simp only [step] at h
    injection h with h
    subst h
    exact ⟨rfl, fun k' hc => Event.noConfusion hc⟩
  | beginFire i =>
    right
    simp only [step] at h
    cases hi : s.timers[i]? with
    | none => rw [hi] at h; exact Option.noConfusion h
    | some t =>
      rw [hi] at h
      dsimp only at h
      by_cases hc : t.cancelledAt = none ∧ t.inflightAt = none ∧ t.deadline ≤ s.now
      case neg => rw [if_neg hc] at h; exact Option.noConfusion h
      case pos =>
        rw [if_pos hc] at h
        injection h with h
        subst h
        exact ⟨rfl, fun k' hc' => Event.noConfusion hc'⟩
  | endFire i =>
    right
    simp only [step] at h
    cases hi : s.timers[i]? with
    | none => rw [hi] at h; exact Option.noConfusion h
    | some t =>
      rw [hi] at h
      dsimp only at h
      by_cases hc : t.inflightAt.isSome = true ∧ t.firedAt = none
      case neg => rw [if_neg hc] at h; exact Option.noConfusion h
      case pos =>
        rw [if_pos hc] at h
        injection h with h
        subst h
        exact ⟨rfl, fun k' hc' => Event.noConfusion hc'⟩

theorem lookupReg_step_mono {e : Event} {s s' : EngineState}
    (h : step e s = some s') (k : String) :
    (lookupReg s.registry k).isSome = true →
    (lookupReg s'.registry k).isSome = true := by
  intro hk
  rcases step_registry h with ⟨k', _, hr⟩ | ⟨hr, _⟩
  · rw [hr, lookupReg_insertReg]
    by_cases hkk : k' = k
    · simp [hkk]
    · rw [if_neg hkk]; exact hk
  · rw [hr]; exact hk

theorem timersFor_key_mem {s : EngineState} {k : String} {t : TimerEntry} :
    t ∈ timersFor s k → t ∈ s.timers ∧ t.key = k := by
  intro ht
  have := List.mem_filter.mp ht
  exact ⟨this.1, by simpa using this.2⟩

theorem exists_key_iff_run {es : List Event} {s' : EngineState}
    (h : run es initState = some s') (k : String) :
    (∃ t ∈ s'.timers, t.key = k) ↔ Event.ping k ∈ es := by
  have hlen := length_timersFor_run h k
  have hinit : (timersFor initState k).length = 0 := rfl
  rw [hinit, Nat.zero_add] at hlen
  constructor
  · rintro ⟨t, ht, htk⟩
    have hmem : t ∈ timersFor s' k :=
      List.mem_filter.mpr ⟨ht, by simpa using htk⟩
    have hpos : 0 < (timersFor s' k).length :=
      List.length_pos.mpr (fun e => by rw [e] at hmem; exact List.not_mem_nil t hmem)
    rw [hlen] at hpos
    exact (pingCount_pos_iff es k).mp hpos
  · intro hm
    have hpos : 0 < pingCount es k := (pingCount_pos_iff es k).mpr hm
    rw [← hlen] at hpos
    obtain ⟨t, ht⟩ := List.exists_mem_of_length_pos hpos
    obtain ⟨h1, h2⟩ := timersFor_key_mem ht
    exact ⟨t, h1, h2⟩

end Dodemansknop

namespace Dodemansknop

/-- Element-wise consequence of the cancellation chain: under the invariant
chain structure, if consecutive timers for a key were created less than a
grace period apart and the trailing timer is the uncancelled one, every
cancelled timer in the list was cancelled strictly before its deadline. -/
theorem cancelled_before_deadline {L : List TimerEntry}
    (hc : List.Chain' Rcancel L)
    (hg : List.Chain' (fun a b => b.created < a.deadline) L)
    (hl : ∀ u, L.getLast? = some u → u.cancelledAt = none) :
    ∀ t ∈ L, t.cancelledAt = none ∨
      ∃ c, t.cancelledAt = some c ∧ c < t.deadline := by
  induction L with
  | nil => intro t ht; exact absurd ht (List.not_mem_nil t)
  | cons a L ih =>
    intro t ht
    cases L with
    | nil =>
      rw [List.mem_singleton] at ht
      subst ht
      exact Or.inl (hl t (by simp))
    | cons b L' =>
      rcases List.mem_cons.mp ht with rfl | ht'
      · exact Or.inr ⟨b.created, (List.chain'_cons.mp hc).1,
          (List.chain'_cons.mp hg).1⟩
      · exact ih (List.chain'_cons.mp hc).2 (List.chain'_cons.mp hg).2
          (fun u hu => hl u (by rw [List.getLast?_cons_cons]; exact hu)) t ht'

/-- C1: for every key `k`, after a single ping for `k` is processed by the
engine and the grace period elapses with no further ping for `k`, exactly
one alert event carrying `k` is emitted on the alert channel: one timer is
scheduled for `k`, and once the timer subsystem has delivered every due
uncancelled callback, the alert channel holds exactly one entry for `k`. -/
theorem watchdog_fires_exactly_once (es : List Event) (s : EngineState) (k : String)
    (hrun : run es initState = some s)
    (hone : pingCount es k = 1)
    (helapsed : ∀ t ∈ timersFor s k, t.deadline ≤ s.now)
    (hcomplete : ∀ t ∈ timersFor s k, t.cancelledAt = none → t.deadline ≤ s.now →
      t.firedAt.isSome = true) :
    (timersFor s k).length = 1 ∧ alertCount s k = 1 := by
  have hinv : Inv s := inv_run inv_init hrun
  have hlen : (timersFor s k).length = 1 := by
    have := length_timersFor_run hrun k
    simpa [hone] using this
  obtain ⟨t, ht⟩ := List.length_eq_one.mp hlen
  refine ⟨hlen, ?_⟩
  have hlast : (timersFor s k).getLast? = some t := by rw [ht]; rfl
  have hcanc : t.cancelledAt = none := hinv.last_alive k t hlast
  have htmem : t ∈ timersFor s k := by
    rw [ht]; exact List.mem_singleton.mpr rfl
  have hfired : t.firedAt.isSome = true :=
    hcomplete t htmem hcanc (helapsed t htmem)
  rw [hinv.alert_eq k, ht]
  simp [hfired]

/-- C2: for every key `k`, if every consecutive pair of pings for `k` is
separated by less than the grace period (so each renewal replaces — and
thereby cancels — the stored timer handle before that handle's deadline),
and the live timer's deadline has not yet been reached, then no alert event
for `k` has been emitted: dropping the superseded guard prevents its future
firing. -/
theorem renewal_within_grace_prevents_alert (es : List Event) (s : EngineState)
    (k : String)
    (hrun : run es initState = some s)
    (hgap : List.Chain' (fun a b => b.created < a.deadline) (timersFor s k))
    (hlive : ∀ t ∈ timersFor s k, t.cancelledAt = none → s.now < t.deadline) :
    alertCount s k = 0 := by
  have hinv : Inv s := inv_run inv_init hrun
  rw [hinv.alert_eq k]
  have hnil : (timersFor s k).filter (fun t => t.firedAt.isSome) = [] := by
    apply List.filter_eq_nil_iff.mpr
    intro t ht hf
    obtain ⟨htm, _⟩ := timersFor_key_mem ht
    have hf' : t.firedAt.isSome = true := by simpa using hf
    have hinf : t.inflightAt.isSome = true := hinv.fired_inflight t htm hf'
    obtain ⟨τ, hτ⟩ := Option.isSome_iff_exists.mp hinf
    have hdl : t.deadline ≤ τ := hinv.inflight_deadline t htm τ hτ
    have hle : τ ≤ s.now := hinv.inflight_le t htm τ hτ
    rcases cancelled_before_deadline (hinv.consec k) hgap (hinv.last_alive k) t ht
      with hnone | ⟨c, hcc, hcd⟩
    · have := hlive t ht hnone
      omega
    · have hτc : τ ≤ c := hinv.inflight_cancel t htm τ c hτ hcc
      omega
  rw [hnil]
  rfl

end Dodemansknop

namespace Dodemansknop

theorem watchdog_fires_exactly_once_witness :
    pingCount [Event.ping "a", Event.tick, Event.tick, Event.tick, Event.tick,
        Event.tick, Event.beginFire 0, Event.endFire 0] "a" = 1 ∧
    (timersFor ⟨5, [⟨"a", 0, 5, none, some 5, some 5⟩], [("a", 0)], ["a"]⟩ "a").length = 1 ∧
    alertCount ⟨5, [⟨"a", 0, 5, none, some 5, some 5⟩], [("a", 0)], ["a"]⟩ "a" = 1 :=
  ⟨by decide,
    watchdog_fires_exactly_once
      [Event.ping "a", Event.tick, Event.tick, Event.tick, Event.tick, Event.tick,
        Event.beginFire 0, Event.endFire 0]
      ⟨5, [⟨"a", 0, 5, none, some 5, some 5⟩], [("a", 0)], ["a"]⟩ "a"
      (by decide) (by decide) (by decide) (by decide)⟩

theorem renewal_within_grace_prevents_alert_witness :
    List.Chain' (fun a b => b.created < a.deadline)
      (timersFor ⟨4, [⟨"a", 0, 5, some 3, none, none⟩, ⟨"a", 3, 8, none, none, none⟩],
        [("a", 1)], []⟩ "a") ∧
    alertCount ⟨4, [⟨"a", 0, 5, some 3, none, none⟩, ⟨"a", 3, 8, none, none, none⟩],
        [("a", 1)], []⟩ "a" = 0 :=
  ⟨by
    have h : timersFor ⟨4, [⟨"a", 0, 5, some 3, none, none⟩,
          ⟨"a", 3, 8, none, none, none⟩], [("a", 1)], []⟩ "a"
        = [⟨"a", 0, 5, some 3, none, none⟩, ⟨"a", 3, 8, none, none, none⟩] := by decide
    rw [h]
    exact List.chain'_pair.mpr (by decide),
    renewal_within_grace_prevents_alert
      [Event.ping "a", Event.tick, Event.tick, Event.tick, Event.ping "a", Event.tick]
      ⟨4, [⟨"a", 0, 5, some 3, none, none⟩, ⟨"a", 3, 8, none, none, none⟩],
        [("a", 1)], []⟩ "a"
      (by decide)
      (by
        have h : timersFor ⟨4, [⟨"a", 0, 5, some 3, none, none⟩,
              ⟨"a", 3, 8, none, none, none⟩], [("a", 1)], []⟩ "a"
            = [⟨"a", 0, 5, some 3, none, none⟩, ⟨"a", 3, 8, none, none, none⟩] := by
          decide
        rw [h]
        exact List.chain'_pair.mpr (by decide))
      (by decide)⟩

/-- C9: the expiry callback emits its alert event unconditionally — it never
re-validates that its timer is still the current handle for its key.  In
this trace timer 0 for `"a"` is already in flight when a renewal ping for
`"a"` supersedes it (its guard is dropped at time 5 and the registry points
to the new timer 1), yet the in-flight callback still completes and sends a
now-spurious alert event for `"a"`. -/
theorem inflight_firing_emits_spurious_alert :
    ∃ s, run [Event.ping "a", Event.tick, Event.tick, Event.tick, Event.tick,
        Event.tick, Event.beginFire 0, Event.ping "a", Event.endFire 0]
      initState = some s ∧
    alertCount s "a" = 1 ∧
    lookupReg s.registry "a" = some 1 ∧
    (∃ t0, s.timers[0]? = some t0 ∧ t0.cancelledAt = some 5 ∧ t0.firedAt = some 5) :=
  ⟨⟨5, [⟨"a", 0, 5, some 5, some 5, some 5⟩, ⟨"a", 5, 10, none, none, none⟩],
      [("a", 1)], ["a"]⟩,
    by decide, by decide, by decide,
    ⟨⟨"a", 0, 5, some 5, some 5, some 5⟩, by decide, by decide, by decide⟩⟩

end Dodemansknop

namespace Dodemansknop

/-- C3 counterexample: with the ping channel full (32 buffered keys) and the
receiver still connected, `handlers::ping` does not respond 503 — the
`SyncSender::send` call blocks the handler until space frees up.  Only a
disconnected receiver produces the 503 response. -/
theorem full_channel_blocks_counterexample :
    (⟨List.replicate 32 "y", 32, true⟩ : PingChannel).buffer.length
        = (⟨List.replicate 32 "y", 32, true⟩ : PingChannel).capacity ∧
    handlersPing "x" ⟨List.replicate 32 "y", 32, true⟩ = HandlerOutcome.blocked ∧
    ¬handlersPing "x" ⟨List.replicate 32 "y", 32, true⟩
        = HandlerOutcome.serviceUnavailable := by
  decide

/-- C3 (amended): for every HTTP POST to `/ping/{key}`, if the ping channel
is closed (receiver disconnected) the handler responds 503 Service
Unavailable; if the channel is full with the receiver alive, the send blocks
inside the handler until space frees up (no 503 is produced); otherwise the
handler responds 200 OK after enqueueing the key.  The ping channel has
fixed capacity 32. -/
theorem handlersPing_outcomes (id : String) (ch : PingChannel) :
    (ch.connected = false → handlersPing id ch = HandlerOutcome.serviceUnavailable) ∧
    (ch.connected = true → ch.buffer.length < ch.capacity →
      handlersPing id ch = HandlerOutcome.ok { ch with buffer := ch.buffer ++ [id] }) ∧
    (ch.connected = true → ¬ch.buffer.length < ch.capacity →
      handlersPing id ch = HandlerOutcome.blocked) ∧
    initPingChannel.capacity = 32 := by
  refine ⟨?_, ?_, ?_, rfl⟩
  · intro h
    simp [handlersPing, h]
  · intro h1 h2
    simp [handlersPing, h1, h2]
  · intro h1 h2
    simp [handlersPing, h1, h2]

theorem handlersPing_outcomes_witness :
    (initPingChannel.connected = true ∧ initPingChannel.buffer.length
        < initPingChannel.capacity ∧
      handlersPing "x" initPingChannel
        = HandlerOutcome.ok ⟨["x"], 32, true⟩) ∧
    ((⟨[], 32, false⟩ : PingChannel).connected = false ∧
      handlersPing "x" ⟨[], 32, false⟩ = HandlerOutcome.serviceUnavailable) :=
  ⟨⟨rfl, by decide,
      (handlersPing_outcomes "x" initPingChannel).2.1 rfl (by decide)⟩,
    ⟨rfl, (handlersPing_outcomes "x" ⟨[], 32, false⟩).1 rfl⟩⟩

/-- C4: at every reachable state at most one live timer handle exists per
key: every timer whose guard has not been dropped is exactly the one the
registry (`active_timers`) stores for its key, so two undropped timers with
the same key coincide — processing a ping stores a new handle and thereby
cancels (drops) any prior handle for that key. -/
theorem one_live_handle_per_key (es : List Event) (s : EngineState)
    (hrun : run es initState = some s) :
    (∀ i t, s.timers[i]? = some t → t.cancelledAt = none →
      lookupReg s.registry t.key = some i) ∧
    (∀ (i j : Nat) (t t' : TimerEntry), s.timers[i]? = some t →
      s.timers[j]? = some t' → t.key = t'.key →
      t.cancelledAt = none → t'.cancelledAt = none → i = j) := by
  have hinv : Inv s := inv_run inv_init hrun
  refine ⟨hinv.reg_complete, ?_⟩
  intro i j t t' hi hj hk hc hc'
  have h1 := hinv.reg_complete i t hi hc
  have h2 := hinv.reg_complete j t' hj hc'
  rw [hk] at h1
  rw [h1] at h2
  exact Option.some.inj h2

theorem one_live_handle_per_key_witness :
    lookupReg [("a", 0), ("b", 1)] "a" = some 0 :=
  (one_live_handle_per_key [Event.ping "a", Event.ping "b"]
      ⟨0, [⟨"a", 0, 5, none, none, none⟩, ⟨"b", 0, 5, none, none, none⟩],
        [("a", 0), ("b", 1)], []⟩
      (by decide)).1 0 ⟨"a", 0, 5, none, none, none⟩ (by decide) (by decide)

/-- C5: the alert dispatcher consumes alert events strictly one at a time in
FIFO channel order and invokes `notify_failure` exactly once per dequeued
event; this holds for every notifier behaviour, in particular one that
returns `Err` for some or all events — a failure result never prevents the
dispatcher from processing every subsequent alert event. -/
theorem dispatcher_processes_all_events (notify : String → NotifyResult)
    (evs : List String) :
    (dispatcherRun notify evs).map Prod.fst = evs ∧
    (dispatcherRun notify evs).map Prod.snd = evs.map notify := by
  induction evs with
  | nil => exact ⟨rfl, rfl⟩
  | cons e evs ih =>
    constructor
    · simp [dispatcherRun, ih.1]
    · simp [dispatcherRun, ih.2]

/-- C6: `build_notifier` returns an error if and only if either the notifier
type is `"webhook"` and the webhook settings are absent, or the notifier
type is neither `"webhook"` nor `"noop"`; it returns a `WebhookNotifier`
for `"webhook"` with settings present and a `NoOpNotifier` for `"noop"`.
These errors are fatal at startup: `main` unwraps the result before
spawning any thread, so an error aborts the process
(`mainStartupNotifier` yields `none`), and `build_notifier` is never
invoked after startup. -/
theorem build_notifier_spec (cfg : Settings) :
    ((∃ e, build_notifier cfg = Except.error e) ↔
      (cfg.notifier_type = "webhook" ∧ cfg.webhook = none) ∨
      (cfg.notifier_type ≠ "webhook" ∧ cfg.notifier_type ≠ "noop")) ∧
    (∀ wh, cfg.notifier_type = "webhook" → cfg.webhook = some wh →
      build_notifier cfg
        = Except.ok (NotifierImpl.webhookNotifier wh.url wh.method
            (wh.headers.getD []))) ∧
    (cfg.notifier_type = "noop" →
      build_notifier cfg = Except.ok NotifierImpl.noOpNotifier) ∧
    (∀ e, build_notifier cfg = Except.error e → mainStartupNotifier cfg = none) := by
  refine ⟨?_, ?_, ?_, ?_⟩
  · by_cases h1 : cfg.notifier_type = "webhook"
    · cases hw : cfg.webhook with
      | some wh => simp [build_notifier, h1, hw]
      | none => simp [build_notifier, h1, hw]
    · by_cases h2 : cfg.notifier_type = "noop"
      · simp [build_notifier, h1, h2]
      · simp [build_notifier, h1, h2]
  · intro wh h1 hw
    simp [build_notifier, h1, hw]
  · intro h2
    by_cases h1 : cfg.notifier_type = "webhook"
    · exact absurd (h1.symm.trans h2) (by decide)
    · simp [build_notifier, h1, h2]
  · intro e he
    simp [mainStartupNotifier, he, Except.toOption]

theorem build_notifier_spec_witness :
    build_notifier ⟨"webhook", none⟩ = Except.error "no webhook settings found" ∧
    mainStartupNotifier ⟨"webhook", none⟩ = none ∧
    build_notifier ⟨"noop", none⟩ = Except.ok NotifierImpl.noOpNotifier ∧
    build_notifier ⟨"webhook", some ⟨"http://h", "POST", none⟩⟩
      = Except.ok (NotifierImpl.webhookNotifier "http://h" "POST" []) :=
  ⟨rfl,
    (build_notifier_spec ⟨"webhook", none⟩).2.2.2 "no webhook settings found" rfl,
    (build_notifier_spec ⟨"noop", none⟩).2.2.1 rfl,
    (build_notifier_spec ⟨"webhook", some ⟨"http://h", "POST", none⟩⟩).2.1
      ⟨"http://h", "POST", none⟩ rfl rfl⟩

/-- C7: the grace period is the single fixed duration of 5 seconds applied
uniformly: in every reachable state, every timer ever scheduled, for every
key, has its deadline exactly `gracePeriod = 5` seconds after the time its
ping was processed. -/
theorem grace_period_uniform (es : List Event) (s : EngineState)
    (hrun : run es initState = some s) :
    gracePeriod = 5 ∧ ∀ t ∈ s.timers, t.deadline = t.created + gracePeriod :=
  ⟨rfl, (inv_run inv_init hrun).deadline_eq⟩

theorem grace_period_uniform_witness :
    gracePeriod = 5 ∧
    (⟨"a", 0, 5, none, none, none⟩ : TimerEntry).deadline
      = (⟨"a", 0, 5, none, none, none⟩ : TimerEntry).created + gracePeriod :=
  ⟨(grace_period_uniform [Event.ping "a"]
      ⟨0, [⟨"a", 0, 5, none, none, none⟩], [("a", 0)], []⟩ (by decide)).1,
    (grace_period_uniform [Event.ping "a"]
      ⟨0, [⟨"a", 0, 5, none, none, none⟩], [("a", 0)], []⟩ (by decide)).2
      ⟨"a", 0, 5, none, none, none⟩ (by decide)⟩

/-- C8: a timer expiry callback never reads or mutates the timer registry:
a `beginFire` step changes no registry entry, no alert and not the clock,
and an `endFire` step's only effect on shared state is appending its
timer's key once to the alert channel; the registry is changed only by
`ping` steps, i.e. only by the engine's serial loop. -/
theorem timer_callback_frame :
    (∀ i s s', step (Event.beginFire i) s = some s' →
      s'.registry = s.registry ∧ s'.alerts = s.alerts ∧ s'.now = s.now) ∧
    (∀ i s s', step (Event.endFire i) s = some s' →
      s'.registry = s.registry ∧ s'.now = s.now ∧
      ∃ t, s.timers[i]? = some t ∧ s'.alerts = s.alerts ++ [t.key]) ∧
    (∀ e s s', step e s = some s' → (∀ k, e ≠ Event.ping k) →
      s'.registry = s.registry) := by
  refine ⟨?_, ?_, ?_⟩
  · intro i s s' h
    simp only [step] at h
    cases hi : s.timers[i]? with
    | none => rw [hi] at h; exact Option.noConfusion h
    | some t =>
      rw [hi] at h
      dsimp only at h
      by_cases hc : t.cancelledAt = none ∧ t.inflightAt = none ∧ t.deadline ≤ s.now
      case neg => rw [if_neg hc] at h; exact Option.noConfusion h
      case pos =>
        rw [if_pos hc] at h
        injection h with h
        subst h
        exact ⟨rfl, rfl, rfl⟩
  · intro i s s' h
    simp only [step] at h
    cases hi : s.timers[i]? with
    | none => rw [hi] at h; exact Option.noConfusion h
    | some t =>
      rw [hi] at h
      dsimp only at h
      by_cases hc : t.inflightAt.isSome = true ∧ t.firedAt = none
      case neg => rw [if_neg hc] at h; exact Option.noConfusion h
      case pos =>
        rw [if_pos hc] at h
        injection h with h
        subst h
        exact ⟨rfl, rfl, t, rfl, rfl⟩
  · intro e s s' h hnp
    rcases step_registry h with ⟨k', hk', _⟩ | ⟨hr, _⟩
    · exact absurd hk' (hnp k')
    · exact hr

theorem timer_callback_frame_witness :
    (⟨5, [⟨"a", 0, 5, none, some 5, none⟩], [("a", 0)], []⟩ : EngineState).registry
      = (⟨5, [⟨"a", 0, 5, none, none, none⟩], [("a", 0)], []⟩ : EngineState).registry ∧
    (⟨5, [⟨"a", 0, 5, none, some 5, some 5⟩], [("a", 0)], ["a"]⟩
        : EngineState).registry
      = (⟨5, [⟨"a", 0, 5, none, some 5, none⟩], [("a", 0)], []⟩
        : EngineState).registry :=
  ⟨(timer_callback_frame.1 0 ⟨5, [⟨"a", 0, 5, none, none, none⟩], [("a", 0)], []⟩
      ⟨5, [⟨"a", 0, 5, none, some 5, none⟩], [("a", 0)], []⟩ (by decide)).1,
    (timer_callback_frame.2.1 0 ⟨5, [⟨"a", 0, 5, none, some 5, none⟩], [("a", 0)], []⟩
      ⟨5, [⟨"a", 0, 5, none, some 5, some 5⟩], [("a", 0)], ["a"]⟩ (by decide)).1⟩

/-- C10: no operation ever removes a key from the timer registry.  In every
reachable state the registry's key set is exactly the set of keys ever
pinged in the trace (in particular, after a timer for `k` fires without
being superseded, the entry for `k` remains), and every single step
preserves the presence of every registry key. -/
theorem registry_keys_monotone (es : List Event) (s : EngineState)
    (hrun : run es initState = some s) :
    (∀ k, (lookupReg s.registry k).isSome = true ↔ Event.ping k ∈ es) ∧
    (∀ e s₂ k, step e s = some s₂ →
      (lookupReg s.registry k).isSome = true →
      (lookupReg s₂.registry k).isSome = true) := by
  have hinv : Inv s := inv_run inv_init hrun
  refine ⟨?_, ?_⟩
  · intro k
    rw [hinv.reg_keys k]
    exact exists_key_iff_run hrun k
  · intro e s₂ k hstep
    exact lookupReg_step_mono hstep k

theorem registry_keys_monotone_witness :
    (lookupReg [("a", 0)] "a").isSome = true :=
  ((registry_keys_monotone
      [Event.ping "a", Event.tick, Event.tick, Event.tick, Event.tick, Event.tick,
        Event.beginFire 0, Event.endFire 0]
      ⟨5, [⟨"a", 0, 5, none, some 5, some 5⟩], [("a", 0)], ["a"]⟩
      (by decide)).1 "a").mpr (by decide)

end Dodemansknop
